import Mathlib

/-!
Verification development for the AdamMil go collections/linq library.

Modelling conventions used throughout this file:

* The Go element type `T` (an empty interface) is modelled by a Lean type
  variable `α`; Go's map-key equality is modelled by a `DecidableEq`
  instance.
* A finite `Sequence` is modelled, at the level of the items a full
  iteration yields, by a `List α`.  Derived operators (`Select`,
  `Concat`, `Distinct`, `Union`, `MergeP`, `GroupByKV`, aggregation,
  `Range2`) are translated from the bodies of their iterator closures in
  the Go source into structural recursions over that list.
* A Go `panic` of a function that otherwise returns a value of type `τ`
  is modelled by `Option τ` (with `none` for the panic) or by
  `Except String τ` carrying the panic message.
* Stateful iterator objects (`functionIterator`, `genericArrayIterator`,
  the map iterator) are modelled as explicit state records with
  `Next`/`Current` as state-passing functions.
* The closure-captured single-entry memoization shared by `Cache`,
  `Reverse` and the `Order*` family is modelled by a small state machine
  (`MatSeq`/`MatState`) instrumented with a pull counter, together with
  a command trace semantics so that arbitrary interleavings of iterator
  creation and advancement can be reasoned about.
* Go's standard-library `sort.Sort` (external to the repository) is
  modelled by a comparison sort driven by the same `Less` predicate the
  repository supplies (`orderData.Less`, i.e. the user comparator).
-/

variable {α β : Type} {σ : Type} {κ ν : Type}

/-- Go `linq/linq.go` `Select`: the derived sequence whose iterator pulls one
upstream item and applies the selector; over a finite source it yields the
item-by-item image of the source. -/
def selectGo (f : α → β) : List α → List β
  | [] => []
  | x :: xs => f x :: selectGo f xs

/-- Go `linq/concat.go` `concatSequence`: drains the first sequence, then each
of the argument sequences in order. -/
def concatGo (s : List α) (seqs : List (List α)) : List α :=
  s ++ seqs.flatten

/-- Go `linq/linq.go` `Range2(start, count)`: yields `start + n` for
`n = 0, 1, ...` while `n < count`; empty when `count` is negative. -/
def range2 (start count : Int) : List Int :=
  (List.range count.toNat).map (fun n => start + n)

/-- Go `linq/linq.go` `Range(n) = Range2(0, n)`. -/
def rangeGo (n : Int) : List Int :=
  range2 0 n

/-- Go `linq/set.go` `Distinct` iterator body: `seen` models the hash `set` of
keys already returned; an item already in the set is skipped, a new item is
added to the set and yielded. -/
def distinctFrom [DecidableEq α] (seen : List α) : List α → List α
  | [] => []
  | x :: xs => if x ∈ seen then distinctFrom seen xs else x :: distinctFrom (x :: seen) xs

/-- Go `linq/set.go` `Distinct`: the iterator starts with an empty seen-set. -/
def distinct [DecidableEq α] (l : List α) : List α :=
  distinctFrom [] l

/-- Specification-side definition (for comparison with `distinct`): the
subsequence of first occurrences, in first-occurrence order, written directly
from the spec's words "one representative per distinct key, in original
first-occurrence order". -/
def firstOccurrences [DecidableEq α] (l : List α) : List α :=
  l.foldl (fun acc x => if x ∈ acc then acc else acc ++ [x]) []

/-- Go `linq/set.go` `Union`: `if len(sequences) != 0` it returns
`s.Concat(sequences...).Distinct()`, otherwise it returns `s` unchanged. -/
def unionGo [DecidableEq α] (s : List α) (seqs : List (List α)) : List α :=
  match seqs with
  | [] => s
  | _ :: _ => distinct (concatGo s seqs)

/-- Go `linq/aggregate.go` `MergeKeep`: keep a one-sided value. -/
def mergeKeep : α → Option α := fun v => some v

/-- Go `linq/aggregate.go` `MergeKeepLeft`: keep the left value on a match. -/
def mergeKeepLeft : α → α → Option α := fun a _ => some a

/-- Go `linq/aggregate.go` `MergeKeepRight`: keep the right value on a match. -/
def mergeKeepRight : α → α → Option α := fun _ b => some b

/-- Helper for `mergeP`: a handler result `(v, true)` contributes `v` to the
output, `(_, false)` (modelled `none`) contributes nothing. -/
def emitMerge (o : Option α) (rest : List α) : List α :=
  match o with
  | some v => v :: rest
  | none => rest

/-- Go `linq/aggregate.go` `MergeP` iterator body, translated to a recursion
over the two remaining input lists.  The `fuel` argument is a purely
structural termination device: every step of the Go loop consumes at least one
input item, so `length l + length r` fuel suffices and the zero-fuel branch is
unreachable from `mergeP`. -/
def mergePFuel (cmp : α → α → Bool) (leftOnly rightOnly : Option (α → Option α))
    (both : Option (α → α → Option α)) : Nat → List α → List α → List α
  | 0, _, _ => []
  | fuel + 1, l :: ls, r :: rs =>
    if cmp l r = true then
      emitMerge (match leftOnly with | some g => g l | none => none)
        (mergePFuel cmp leftOnly rightOnly both fuel ls (r :: rs))
    else if cmp r l = true then
      emitMerge (match rightOnly with | some g => g r | none => none)
        (mergePFuel cmp leftOnly rightOnly both fuel (l :: ls) rs)
    else
      emitMerge (match both with | some g => g l r | none => none)
        (mergePFuel cmp leftOnly rightOnly both fuel ls rs)
  | fuel + 1, l :: ls, [] =>
    match leftOnly with
    | some g => emitMerge (g l) (mergePFuel cmp leftOnly rightOnly both fuel ls [])
    | none => []
  | fuel + 1, [], r :: rs =>
    match rightOnly with
    | some g => emitMerge (g r) (mergePFuel cmp leftOnly rightOnly both fuel [] rs)
    | none => []
  | _ + 1, [], [] => []

/-- Go `linq/aggregate.go` `MergeP`: merge two sorted sequences with
left-only, right-only and both handlers (a `none` handler models a nil
function: the corresponding items are consumed but never emitted, and a
remaining one-sided tail with no handler ends the iteration). -/
def mergeP (cmp : α → α → Bool) (leftOnly rightOnly : Option (α → Option α))
    (both : Option (α → α → Option α)) (l r : List α) : List α :=
  mergePFuel cmp leftOnly rightOnly both (l.length + r.length) l r

/-- Go `linq/aggregate.go` `TryAggregate` loop, instrumented: `aggLoop agg v l`
returns the folded value together with the list of argument pairs the
aggregator was invoked with, in invocation order. -/
def aggLoop (agg : α → α → α) (v : α) : List α → α × List (α × α)
  | [] => (v, [])
  | y :: ys =>
    ((aggLoop agg (agg v y) ys).1, (v, y) :: (aggLoop agg (agg v y) ys).2)

/-- Go `linq/aggregate.go` `TryAggregate`: `none` models the `(nil, false)`
result on an empty sequence; otherwise the first item seeds the fold. -/
def tryAggregate (agg : α → α → α) : List α → Option α
  | [] => none
  | x :: xs => some (aggLoop agg x xs).1

/-- Instrumented variant of `tryAggregate` that also reports every argument
pair passed to the aggregator. -/
def tryAggregateCalls (agg : α → α → α) : List α → Option α × List (α × α)
  | [] => (none, [])
  | x :: xs => (some (aggLoop agg x xs).1, (aggLoop agg x xs).2)

/-- Go `linq/aggregate.go` `Aggregate`: `TryAggregate`, panicking with
`emptyError` (message from `linq/errors.go`) on an empty sequence. -/
def aggregate (agg : α → α → α) (l : List α) : Except String α :=
  match tryAggregate agg l with
  | some v => Except.ok v
  | none => Except.error "the sequence was empty (or no items matched)"

/-- Insertion step of the comparison sort modelling Go's `sort.Sort` on
`orderData` (`linq/concat.go`): `cmp` is `orderData.Less`, i.e. the user's
less-than comparator. -/
def insertCmp (cmp : α → α → Bool) (x : α) : List α → List α
  | [] => [x]
  | y :: ys => if cmp x y = true then x :: y :: ys else y :: insertCmp cmp x ys

/-- Model of Go's standard-library `sort.Sort` (external to this repository)
applied to `orderData`: an in-place, unstable comparison sort whose only
contract is that the result is a permutation of the input ordered by the
supplied `Less`.  It is embedded as an insertion sort over the same
comparator. -/
def sortGo (cmp : α → α → Bool) (l : List α) : List α :=
  l.foldr (insertCmp cmp) []

/-- Go `linq/concat.go` `OrderPD`: sorts the materialized source with the
given comparator; `sort.Reverse` flips the argument order of `Less`. -/
def orderPD (cmp : α → α → Bool) (rev : Bool) (src : List α) : List α :=
  sortGo (fun a b => if rev then cmp b a else cmp a b) src

/-- Grouping step of Go `linq/linq.go` `GroupByKV`: `m[k] = append(m[k], v)`,
on an association-list model of the Go map (keys in first-encounter order, a
canonical representative of the unordered map contents). -/
def insertGroup [DecidableEq κ] (k : κ) (v : β) : List (κ × List β) → List (κ × List β)
  | [] => [(k, [v])]
  | (k₁, vs) :: rest =>
    if k = k₁ then (k₁, vs ++ [v]) :: rest else (k₁, vs) :: insertGroup k v rest

/-- Go `linq/linq.go` `GroupByKV`: drains the source, keying each item by
`keySel` and projecting it through `valSel` when that selector is non-nil
(`none` models the nil value-selector, i.e. the identity).  The Go result
iterates a hash map, so the order of the groups is unspecified; this model
fixes the first-encounter order as one canonical representative, and claims
about the result are stated up to permutation. -/
def groupByKV [DecidableEq κ] (keySel : α → κ) (valSel : Option (α → α))
    (src : List α) : List (κ × List α) :=
  src.foldl
    (fun m x =>
      insertGroup (keySel x) (match valSel with | some g => g x | none => x) m)
    []

/-- Result of Go `linq/parallel.go` `ParallelSelect`.  The `maxThreads < 0`
and effective-one-thread paths are sequential code, modelled exactly; the
`maxThreads > 1` path starts a worker pool whose output order is
nondeterministic by design, so the model records only that the concurrent
engine was entered and with how many threads. -/
inductive PSelectResult (β : Type) where
  | panicked (msg : String)
  | sequential (out : List β)
  | concurrent (effectiveThreads : Nat)
deriving DecidableEq

/-- Go `linq/parallel.go` `ParallelSelect`: `maxThreads == 0` substitutes the
CPU count (a parameter `numCPU` here), a negative `maxThreads` panics before
touching the source, and an effective thread count of 1 degrades to the
sequential `Select`.  (The Go code tests `== 0` before `< 0`; as `0` is not
negative the two orderings agree.) -/
def parallelSelect (numCPU : Nat) (maxThreads : Int) (f : α → β) (src : List α) :
    PSelectResult β :=
  if maxThreads < 0 then
    PSelectResult.panicked "the number of threads must be non-negative"
  else
    if (if maxThreads = 0 then (numCPU : Int) else maxThreads) = 1 then
      PSelectResult.sequential (selectGo f src)
    else
      PSelectResult.concurrent (if maxThreads = 0 then (numCPU : Int) else maxThreads).toNat

/-- Result of Go `linq/parallel.go` `ParallelForEach` for a total (non-panicking)
action.  `unbounded` records the `threads < 0` branch: one goroutine is spawned
per source item as the single reader pulls items in order, and `wg.Wait()`
joins them all before the call returns, so the recorded list is exactly the
list of items the action was applied to, one application each.  `sequential`
records the effective-one-thread `ForEach` degradation, and `pooled` the
fixed worker pool fed by the single producer. -/
inductive ForEachOutcome (α : Type) where
  | unbounded (spawned : List α)
  | sequential (visited : List α)
  | pooled (workers : Nat) (fed : List α)
deriving DecidableEq

/-- Go `linq/parallel.go` `ParallelForEach` with a total action: negative
`threads` fans out one task per item; `threads == 0` substitutes the CPU
count; an effective count of 1 runs the sequential `ForEach`. -/
def parallelForEach (numCPU : Nat) (threads : Int) (src : List α) : ForEachOutcome α :=
  if threads < 0 then
    ForEachOutcome.unbounded src
  else
    if (if threads = 0 then (numCPU : Int) else threads) = 1 then
      ForEachOutcome.sequential src
    else
      ForEachOutcome.pooled (if threads = 0 then (numCPU : Int) else threads).toNat src

/-- Go `collections/sequences.go` `functionIterator`: wraps an `IteratorFunc`
(`f`, modelled as a state-passing step function returning `(value, ok)`),
caching the last value in `cur` and its validity in `valid`. -/
structure FunIterator (σ α : Type) where
  f : σ → (α × Bool) × σ
  fstate : σ
  cur : α
  valid : Bool

/-- A freshly created `functionIterator`: `cur` is the Go zero value and
`valid` is false. -/
def funIteratorNew [Inhabited α] (f : σ → (α × Bool) × σ) (s : σ) : FunIterator σ α :=
  { f := f, fstate := s, cur := default, valid := false }

/-- Go `functionIterator.Next`: `i.cur, i.valid = i.f()`, returning `valid`. -/
def funNext (it : FunIterator σ α) : Bool × FunIterator σ α :=
  ((it.f it.fstate).1.2,
   { f := it.f, fstate := (it.f it.fstate).2,
     cur := (it.f it.fstate).1.1, valid := (it.f it.fstate).1.2 })

/-- Go `functionIterator.Current`: panics ("Current called outside sequence",
modelled `none`) unless `valid`. -/
def funCurrent (it : FunIterator σ α) : Option α :=
  if it.valid then some it.cur else none

/-- Go `collections/sequences.go` `genericArrayIterator` (and the generated
typed variants such as `int32Iterator`): a backing array and a cursor that
starts at `-1`. -/
structure ArrIterator (α : Type) where
  array : List α
  index : Int

/-- Go `genericArraySequence.Iterator()`: cursor starts at `-1`. -/
def arrIteratorNew (xs : List α) : ArrIterator α :=
  { array := xs, index := -1 }

/-- Go `genericArrayIterator.Next`: advances only while `index + 1` is in
range; on exhaustion the index is left unchanged (at the last element). -/
def arrNext (it : ArrIterator α) : Bool × ArrIterator α :=
  if it.index + 1 < (it.array.length : Int) then
    (true, { array := it.array, index := it.index + 1 })
  else
    (false, it)

/-- Go `genericArrayIterator.Current`: `array.Index(index)` via reflection,
which panics (modelled `none`) only when the index is out of range; any
in-range index silently yields the element. -/
def arrCurrent (it : ArrIterator α) : Option α :=
  if 0 ≤ it.index then it.array[it.index.toNat]? else none

/-- Go `collections/sequences.go` `mapIterator`, which delegates to the
standard library's `reflect.MapIter` (external to this repository): the map
contents are modelled as a list of key/value pairs in an arbitrary fixed
order, with the cursor at `-1` before the first `Next` and parked past the
end once `Next` has returned false. -/
structure GoMapIterator (κ ν : Type) where
  pairs : List (κ × ν)
  index : Int

/-- A fresh map iterator, positioned before the first entry. -/
def mapIteratorNew (ps : List (κ × ν)) : GoMapIterator κ ν :=
  { pairs := ps, index := -1 }

/-- Model of `reflect.MapIter.Next` as used by `mapIterator.Next`: advances
to the next entry, and on exhaustion marks the iterator exhausted (after
which `Key`/`Value` panic). -/
def mapIterNext (it : GoMapIterator κ ν) : Bool × GoMapIterator κ ν :=
  if it.index + 1 < (it.pairs.length : Int) then
    (true, { pairs := it.pairs, index := it.index + 1 })
  else
    (false, { pairs := it.pairs, index := (it.pairs.length : Int) })

/-- Go `mapIterator.Current` via `reflect.MapIter.Key`/`Value`: panics
(modelled `none`) before the first `Next` and on an exhausted iterator,
otherwise yields the current `Pair`. -/
def mapIterCurrent (it : GoMapIterator κ ν) : Option (κ × ν) :=
  if 0 ≤ it.index then it.pairs[it.index.toNat]? else none

/-- A materializing-operator value (Go `linq` `Cache`, `Reverse`,
`OrderPD`/`OrderByPD`): each of these closes over a shared nil-initialized
buffer and materializes `compute src` into it on first demand.  `compute` is
the identity for `Cache`, `List.reverse` for `Reverse`, and the sort for the
`Order*` family. -/
structure MatSeq (α : Type) where
  compute : List α → List α
  src : List α

/-- The shared closure state of one materializing-operator value: the
buffer (`none` models the nil slice) plus an instrumentation counter of how
many times the upstream sequence has been drained. -/
structure MatState (α : Type) where
  items : Option (List α)
  pulls : Nat

/-- Initial closure state: nil buffer, upstream never drained. -/
def matInit : MatState α :=
  { items := none, pulls := 0 }

/-- Go `if items == nil { items = ...ToSlice(s)... }`: fill the shared buffer
if it is still nil, draining the upstream exactly then. -/
def matFill (m : MatSeq α) (st : MatState α) : MatState α :=
  if st.items.isNone then
    { items := some (m.compute m.src), pulls := st.pulls + 1 }
  else
    st

/-- One `Next` call of an iterator drawn from a materializing value: fill the
buffer if needed, then yield `items[index]` and advance, or report
exhaustion.  Returns (yielded value, new shared state, new iterator index). -/
def matNext (m : MatSeq α) (st : MatState α) (index : Nat) :
    Option α × MatState α × Nat :=
  match ((matFill m st).items.getD [])[index]? with
  | some v => (some v, matFill m st, index + 1)
  | none => (none, matFill m st, index)

/-- A command against one materializing value: obtain a fresh iterator, or
advance the `i`-th iterator obtained so far. -/
inductive MatCmd where
  | newIter : MatCmd
  | next : Nat → MatCmd
deriving DecidableEq

/-- A trace over one materializing value: the shared closure state, the
per-iterator cursor of every iterator obtained so far, and the values the
`next` commands yielded, oldest first. -/
structure MatTrace (α : Type) where
  st : MatState α
  iters : List Nat
  outs : List (Option α)

/-- The empty trace: the state a structurally new operator application
starts from (independent of any other application's state). -/
def matTraceInit : MatTrace α :=
  { st := matInit, iters := [], outs := [] }

/-- One command step: `newIter` registers a fresh cursor at 0 (Go
`index := 0` in the per-iterator closure); `next i` advances iterator `i`
against the shared state.  A `next` for an unknown iterator id is a no-op. -/
def matStep (m : MatSeq α) (t : MatTrace α) : MatCmd → MatTrace α
  | MatCmd.newIter => { st := t.st, iters := t.iters ++ [0], outs := t.outs }
  | MatCmd.next i =>
    match t.iters[i]? with
    | none => t
    | some idx =>
      { st := (matNext m t.st idx).2.1
        iters := t.iters.set i (matNext m t.st idx).2.2
        outs := t.outs ++ [(matNext m t.st idx).1] }

/-- Run a list of commands against one materializing value, starting from
its fresh state. -/
def matRun (m : MatSeq α) (cmds : List MatCmd) : MatTrace α :=
  cmds.foldl (matStep m) matTraceInit

/-- Drain up to `k` items from an iterator with cursor `index` against shared
state `st`, collecting the yielded values (stopping at exhaustion). -/
def matDrain (m : MatSeq α) (st : MatState α) (index : Nat) : Nat → List α × MatState α
  | 0 => ([], st)
  | k + 1 =>
    match matNext m st index with
    | (some v, st₁, idx₁) =>
      ((v :: (matDrain m st₁ idx₁ k).1), (matDrain m st₁ idx₁ k).2)
    | (none, st₁, _) => ([], st₁)

/-- Go `linq/linq.go` `Cache` as a materializing value: the buffer is the
source itself. -/
def cacheSeq (src : List α) : MatSeq α :=
  { compute := fun l => l, src := src }

/-- Go `linq/linq.go` `Reverse` as a materializing value: the buffer is the
reversed source. -/
def reverseSeq (src : List α) : MatSeq α :=
  { compute := List.reverse, src := src }

/-- Go `linq/concat.go` `OrderPD` as a materializing value: the buffer is the
sorted source. -/
def orderSeq (cmp : α → α → Bool) (rev : Bool) (src : List α) : MatSeq α :=
  { compute := orderPD cmp rev, src := src }

theorem mem_distinctFrom [DecidableEq α] (seen : List α) (l : List α) (a : α) :
    a ∈ distinctFrom seen l ↔ a ∈ l ∧ a ∉ seen := by
  induction l generalizing seen with
  | nil => simp [distinctFrom]
  | cons x xs ih =>
    by_cases hx : x ∈ seen
    · simp only [distinctFrom, if_pos hx, ih, List.mem_cons]
      constructor
      · exact fun h => ⟨Or.inr h.1, h.2⟩
      · rintro ⟨rfl | h1, h2⟩
        · exact absurd hx h2
        · exact ⟨h1, h2⟩
    · simp only [distinctFrom, if_neg hx, List.mem_cons, ih]
      constructor
      · rintro (rfl | ⟨h1, h2⟩)
        · exact ⟨Or.inl rfl, hx⟩
        · exact ⟨Or.inr h1, fun hs => h2 (Or.inr hs)⟩
      · rintro ⟨rfl | h1, h2⟩
        · exact Or.inl rfl
        · by_cases hax : a = x
          · exact Or.inl hax
          · exact Or.inr ⟨h1, fun hs => hs.elim hax h2⟩

theorem nodup_distinctFrom [DecidableEq α] (seen : List α) (l : List α) :
    (distinctFrom seen l).Nodup := by
  induction l generalizing seen with
  | nil => simp [distinctFrom]
  | cons x xs ih =>
    by_cases hx : x ∈ seen
    · simpa only [distinctFrom, if_pos hx] using ih seen
    · simp only [distinctFrom, if_neg hx, List.nodup_cons]
      exact ⟨fun hmem => ((mem_distinctFrom _ _ _).mp hmem).2 (List.mem_cons_self x _), ih _⟩

theorem distinctFrom_congr [DecidableEq α] (s₁ s₂ : List α) (l : List α)
    (h : ∀ a, a ∈ s₁ ↔ a ∈ s₂) : distinctFrom s₁ l = distinctFrom s₂ l := by
  induction l generalizing s₁ s₂ with
  | nil => rfl
  | cons x xs ih =>
    simp only [distinctFrom]
    by_cases hx : x ∈ s₁
    · rw [if_pos hx, if_pos ((h x).mp hx)]
      exact ih s₁ s₂ h
    · rw [if_neg hx, if_neg (fun hc => hx ((h x).mpr hc))]
      rw [ih (x :: s₁) (x :: s₂) (fun a => by simp [List.mem_cons, h a])]

theorem foldl_firstOcc [DecidableEq α] (acc : List α) (l : List α) :
    l.foldl (fun a x => if x ∈ a then a else a ++ [x]) acc = acc ++ distinctFrom acc l := by
  induction l generalizing acc with
  | nil => simp [distinctFrom]
  | cons x xs ih =>
    simp only [List.foldl_cons, distinctFrom]
    by_cases hx : x ∈ acc
    · rw [if_pos hx, if_pos hx, ih]
    · rw [if_neg hx, if_neg hx, ih]
      rw [distinctFrom_congr (acc ++ [x]) (x :: acc) xs
        (fun a => by simp [List.mem_append, List.mem_cons, or_comm])]
      simp

theorem distinct_eq_firstOcc [DecidableEq α] (l : List α) :
    distinct l = firstOccurrences l := by
  unfold distinct firstOccurrences
  rw [foldl_firstOcc]
  simp

theorem distinctFrom_of_nodup [DecidableEq α] (seen : List α) (l : List α)
    (hd : l.Nodup) (hs : ∀ a ∈ l, a ∉ seen) : distinctFrom seen l = l := by
  induction l generalizing seen with
  | nil => rfl
  | cons x xs ih =>
    simp only [distinctFrom, if_neg (hs x (List.mem_cons_self x xs))]
    congr 1
    refine ih (x :: seen) (List.Nodup.of_cons hd) ?_
    intro a ha
    intro hmem
    rcases List.mem_cons.mp hmem with rfl | hseen
    · exact (List.nodup_cons.mp hd).1 ha
    · exact hs a (List.mem_cons_of_mem x ha) hseen

theorem distinct_idempotent [DecidableEq α] (l : List α) :
    distinct (distinct l) = distinct l := by
  refine distinctFrom_of_nodup [] (distinct l) (nodup_distinctFrom [] l) ?_
  intro a _
  exact List.not_mem_nil a

theorem perm_insertCmp (cmp : α → α → Bool) (x : α) (l : List α) :
    List.Perm (insertCmp cmp x l) (x :: l) := by
  induction l with
  | nil => exact List.Perm.refl _
  | cons y ys ih =>
    by_cases h : cmp x y = true
    · rw [insertCmp, if_pos h]
    · rw [insertCmp, if_neg h]
      exact (ih.cons y).trans (List.Perm.swap x y ys)

theorem perm_sortGo (cmp : α → α → Bool) (l : List α) :
    List.Perm (sortGo cmp l) l := by
  induction l with
  | nil => exact List.Perm.refl _
  | cons x xs ih =>
    exact (perm_insertCmp cmp x (sortGo cmp xs)).trans (ih.cons x)

theorem head?_insertCmp (cmp : α → α → Bool) (x : α) (l : List α) :
    (insertCmp cmp x l).head? = some x ∨ (insertCmp cmp x l).head? = l.head? := by
  cases l with
  | nil => exact Or.inl rfl
  | cons y ys =>
    by_cases h : cmp x y = true
    · left
      rw [insertCmp, if_pos h]
      rfl
    · right
      rw [insertCmp, if_neg h]
      rfl

theorem chain_insertCmp (cmp : α → α → Bool)
    (hasym : ∀ a b, cmp a b = true → cmp b a = false) (x : α) (l : List α)
    (h : List.Chain' (fun a b => cmp b a = false) l) :
    List.Chain' (fun a b => cmp b a = false) (insertCmp cmp x l) := by
  induction l with
  | nil => exact List.chain'_singleton x
  | cons y ys ih =>
    rcases List.chain'_cons'.mp h with ⟨hy, hys⟩
    by_cases hc : cmp x y = true
    · rw [insertCmp, if_pos hc]
      exact List.chain'_cons.mpr ⟨hasym x y hc, h⟩
    · rw [insertCmp, if_neg hc]
      refine List.chain'_cons'.mpr ⟨?_, ih hys⟩
      intro z hz
      rcases head?_insertCmp cmp x ys with h1 | h1
      · rw [h1] at hz
        rcases Option.mem_some_iff.mp hz with rfl
        exact Bool.eq_false_iff.mpr (fun hcombo => hc hcombo)
      · rw [h1] at hz
        exact hy z hz

theorem chain_sortGo (cmp : α → α → Bool)
    (hasym : ∀ a b, cmp a b = true → cmp b a = false) (l : List α) :
    List.Chain' (fun a b => cmp b a = false) (sortGo cmp l) := by
  induction l with
  | nil => exact List.chain'_nil
  | cons x xs ih =>
    exact chain_insertCmp cmp hasym x (sortGo cmp xs) ih

theorem orderPD_false_eq (cmp : α → α → Bool) (src : List α) :
    orderPD cmp false src = sortGo cmp src := by
  unfold orderPD
  congr 1

/-- The invariant of the shared closure state of one materializing value:
either the buffer is still nil and the upstream has never been drained, or
the buffer holds exactly the materialization of the source and the upstream
has been drained exactly once. -/
def MatInv (m : MatSeq α) (st : MatState α) : Prop :=
  (st.items = none ∧ st.pulls = 0) ∨
  (st.items = some (m.compute m.src) ∧ st.pulls = 1)

theorem matInv_init (m : MatSeq α) : MatInv m (matInit : MatState α) :=
  Or.inl ⟨rfl, rfl⟩

theorem pulls_le_one_of_inv (m : MatSeq α) (st : MatState α) (h : MatInv m st) :
    st.pulls ≤ 1 := by
  rcases h with ⟨_, h2⟩ | ⟨_, h2⟩ <;> omega

theorem matFill_items_of_inv (m : MatSeq α) (st : MatState α) (h : MatInv m st) :
    (matFill m st).items = some (m.compute m.src) := by
  rcases h with ⟨h1, _⟩ | ⟨h1, _⟩ <;> simp [matFill, h1]

theorem matFill_pulls_of_inv (m : MatSeq α) (st : MatState α) (h : MatInv m st) :
    (matFill m st).pulls = 1 := by
  rcases h with ⟨h1, h2⟩ | ⟨h1, h2⟩ <;> simp [matFill, h1, h2]

theorem matFill_of_inv (m : MatSeq α) (st : MatState α) (h : MatInv m st) :
    matFill m st = { items := some (m.compute m.src), pulls := 1 } := by
  rcases hst : matFill m st with ⟨items, pulls⟩
  have h1 := matFill_items_of_inv m st h
  have h2 := matFill_pulls_of_inv m st h
  rw [hst] at h1 h2
  simp only at h1 h2
  rw [h1, h2]

theorem matFill_inv (m : MatSeq α) (st : MatState α) (h : MatInv m st) :
    MatInv m (matFill m st) :=
  Or.inr ⟨matFill_items_of_inv m st h, matFill_pulls_of_inv m st h⟩

theorem matNext_state (m : MatSeq α) (st : MatState α) (idx : Nat) :
    (matNext m st idx).2.1 = matFill m st := by
  unfold matNext
  rcases hg : ((matFill m st).items.getD [])[idx]? with _ | v <;> simp [hg]

theorem matFill_idem (m : MatSeq α) (st : MatState α) :
    matFill m (matFill m st) = matFill m st := by
  unfold matFill
  rcases h : st.items with _ | l <;> simp [h]

theorem matNext_fill_congr (m : MatSeq α) (st : MatState α) (idx : Nat) :
    matNext m st idx = matNext m (matFill m st) idx := by
  unfold matNext
  rw [matFill_idem]

theorem matStep_inv (m : MatSeq α) (t : MatTrace α) (c : MatCmd)
    (h : MatInv m t.st) : MatInv m (matStep m t c).st := by
  cases c with
  | newIter => simpa [matStep] using h
  | next i =>
    rcases hg : t.iters[i]? with _ | idx
    · simpa [matStep, hg] using h
    · simp only [matStep, hg]
      rw [matNext_state]
      exact matFill_inv m t.st h

theorem matRun_inv (m : MatSeq α) (cmds : List MatCmd) :
    MatInv m (matRun m cmds).st := by
  suffices h : ∀ t : MatTrace α, MatInv m t.st →
      MatInv m (cmds.foldl (matStep m) t).st by
    exact h matTraceInit (matInv_init m)
  induction cmds with
  | nil => exact fun t ht => ht
  | cons c cs ih =>
    intro t ht
    exact ih (matStep m t c) (matStep_inv m t c ht)

theorem matFoldl_newIters (m : MatSeq α) (cmds : List MatCmd) :
    ∀ t : MatTrace α, (∀ c ∈ cmds, c = MatCmd.newIter) →
      (cmds.foldl (matStep m) t).st = t.st := by
  induction cmds with
  | nil =>
    intro t _
    rfl
  | cons c cs ih =>
    intro t ht
    have hc : c = MatCmd.newIter := ht c (List.mem_cons_self c cs)
    subst hc
    rw [List.foldl_cons]
    rw [ih (matStep m t MatCmd.newIter) (fun d hd => ht d (List.mem_cons_of_mem _ hd))]
    rfl

theorem matRun_newIters (m : MatSeq α) (cmds : List MatCmd)
    (h : ∀ c ∈ cmds, c = MatCmd.newIter) : (matRun m cmds).st = matInit :=
  matFoldl_newIters m cmds matTraceInit h

theorem getElem?_of_length_le (l : List α) (n : Nat) (h : l.length ≤ n) :
    l[n]? = none := by
  induction l generalizing n with
  | nil => simp
  | cons x xs ih =>
    cases n with
    | zero => simp at h
    | succ k =>
      simp only [List.length_cons] at h
      simpa using ih k (by omega)

theorem drop_cons_of_getElem? (l : List α) (i : Nat) (v : α) (h : l[i]? = some v) :
    l.drop i = v :: l.drop (i + 1) := by
  induction l generalizing i with
  | nil => simp at h
  | cons x xs ih =>
    cases i with
    | zero =>
      simp only [List.getElem?_cons_zero] at h
      cases h
      rfl
    | succ k =>
      simp only [List.getElem?_cons_succ] at h
      simpa using ih k h

theorem matDrain_filled (m : MatSeq α) (pulls : Nat) (index k : Nat) :
    matDrain m { items := some (m.compute m.src), pulls := pulls } index k
      = (((m.compute m.src).drop index).take k,
         { items := some (m.compute m.src), pulls := pulls }) := by
  induction k generalizing index with
  | zero => rfl
  | succ k ih =>
    rcases hg : (m.compute m.src)[index]? with _ | v
    · have hlen : (m.compute m.src).length ≤ index := by
        by_contra hlt
        have hsome : (m.compute m.src)[index]? = some ((m.compute m.src).get ⟨index, by omega⟩) := by
          rw [List.getElem?_eq_getElem (by omega)]
          rfl
        rw [hg] at hsome
        exact Option.noConfusion hsome
      have hdrop : (m.compute m.src).drop index = [] :=
        List.drop_eq_nil_of_le hlen
      simp [matDrain, matNext, matFill, hg, hdrop]
    · have hdrop := drop_cons_of_getElem? (m.compute m.src) index v hg
      simp [matDrain, matNext, matFill, hg, ih (index + 1), hdrop]

theorem matDrain_fill_congr (m : MatSeq α) (st : MatState α) (idx k : Nat) :
    matDrain m st idx (k + 1) = matDrain m (matFill m st) idx (k + 1) := by
  simp only [matDrain]
  rw [matNext_fill_congr]

theorem matDrain_inv (m : MatSeq α) (st : MatState α) (h : MatInv m st) (k : Nat) :
    (matDrain m st 0 k).1 = (m.compute m.src).take k
    ∧ (matDrain m st 0 k).2.pulls ≤ 1 := by
  cases k with
  | zero =>
    exact ⟨rfl, pulls_le_one_of_inv m st h⟩
  | succ k =>
    rw [matDrain_fill_congr, matFill_of_inv m st h, matDrain_filled]
    simp

/-- C7: `Distinct` yields exactly one representative per distinct key — the
first occurrence — in first-occurrence order (it equals the spec-side
`firstOccurrences`, is duplicate-free, and keeps exactly the keys of the
source), and applying `Distinct` twice yields the same items in the same
order as applying it once. -/
theorem distinct_first_occurrence_idempotent [DecidableEq α] (l : List α) :
    (distinct l).Nodup
    ∧ (∀ a, a ∈ distinct l ↔ a ∈ l)
    ∧ distinct l = firstOccurrences l
    ∧ distinct (distinct l) = distinct l := by
  refine ⟨nodup_distinctFrom [] l, ?_, distinct_eq_firstOcc l, distinct_idempotent l⟩
  intro a
  rw [distinct, mem_distinctFrom]
  simp

/-- C3 counterexample: `Union` invoked with an empty argument list returns
the receiver sequence unchanged, so a duplicate in the receiver survives,
whereas `Distinct` of the concatenation removes it; the claimed equality
fails at the concrete receiver `[1, 1]` with no argument sequences. -/
theorem union_no_args_keeps_duplicates :
    unionGo ([1, 1] : List Int) [] = [1, 1]
    ∧ distinct (concatGo ([1, 1] : List Int) []) = [1] := by
  constructor
  · rfl
  · rfl

/-- C3 amended: with at least one argument sequence, `Union` yields exactly
the items of `Distinct` applied to the concatenation of the receiver with
all arguments (equivalently, the first-occurrence subsequence of the
concatenation), in that order; with an empty argument list `Union` returns
the receiver unchanged, keeping any duplicates it contains. -/
theorem union_distinct_concat [DecidableEq α] (s t : List α) (ts : List (List α)) :
    unionGo s (t :: ts) = firstOccurrences (concatGo s (t :: ts))
    ∧ unionGo s [] = s := by
  refine ⟨?_, rfl⟩
  exact distinct_eq_firstOcc (concatGo s (t :: ts))

/-- C5: iterating `Order` (`OrderPD` with `reverse = false`) over a finite
source yields a permutation of the source in which every pair of consecutive
output elements `a, b` satisfies `¬ cmp b a`, provided `cmp` is a strict
(asymmetric) less-than comparator; applying the sort twice yields the same
multiset of values. -/
theorem orderPD_perm_sorted (cmp : α → α → Bool) (src : List α)
    (hasym : ∀ a b, cmp a b = true → cmp b a = false) :
    List.Perm (orderPD cmp false src) src
    ∧ List.Chain' (fun a b => cmp b a = false) (orderPD cmp false src)
    ∧ List.Perm (orderPD cmp false (orderPD cmp false src)) (orderPD cmp false src) := by
  refine ⟨?_, ?_, ?_⟩
  · rw [orderPD_false_eq]
    exact perm_sortGo cmp src
  · rw [orderPD_false_eq]
    exact chain_sortGo cmp hasym src
  · simp only [orderPD_false_eq]
    exact perm_sortGo cmp (sortGo cmp src)

/-- Witness for C5 at a concrete comparator and list. -/
theorem orderPD_perm_sorted_witness :
    List.Perm (orderPD (fun a b : Fin 3 => decide (a < b)) false [2, 0, 1]) [2, 0, 1]
    ∧ List.Chain' (fun a b : Fin 3 => decide (b < a) = false)
        (orderPD (fun a b : Fin 3 => decide (a < b)) false [2, 0, 1]) := by
  have h := orderPD_perm_sorted (fun a b : Fin 3 => decide (a < b)) [2, 0, 1] (by decide)
  exact ⟨h.1, h.2.1⟩

/-- C6: `ParallelSelect` with `maxThreads = 1` degrades to the sequential
`Select`: it returns a sequence that yields exactly the item-by-item image
of the source under the selector, in source order. -/
theorem parallelSelect_one_eq_select (numCPU : Nat) (f : α → β) (src : List α) :
    parallelSelect numCPU 1 f src = PSelectResult.sequential (selectGo f src)
    ∧ selectGo f src = src.map f := by
  constructor
  · simp [parallelSelect]
  · induction src with
    | nil => rfl
    | cons x xs ih => simp [selectGo, ih]

/-- C8: grouping `0..9` by integer division by 4 yields, up to the
unspecified group order, exactly the three groups keyed `0`, `1`, `2`
containing `[0,1,2,3]`, `[4,5,6,7]` and `[8,9]` respectively, each in the
original relative order. -/
theorem groupBy_div4_range10 :
    List.Perm (groupByKV (fun i => Int.tdiv i 4) none (rangeGo 10))
      [((0 : Int), [(0 : Int), 1, 2, 3]), (1, [4, 5, 6, 7]), (2, [8, 9])] := by
  decide

/-- C9: `MergeP` over left `[1,3,5,6,7,10]` and right `[2,4,5,7,9]` under
integer less-than with `leftOnly = MergeKeep`, `rightOnly = nil`,
`both = MergeKeepRight` yields exactly `[1,3,5,6,7,10]`. -/
theorem mergeP_keep_nil_keepRight :
    mergeP (fun a b : Int => decide (a < b)) (some mergeKeep) none (some mergeKeepRight)
      [1, 3, 5, 6, 7, 10] [2, 4, 5, 7, 9] = [1, 3, 5, 6, 7, 10] := by
  decide

/-- C10: on a single-item sequence both `Aggregate` and `TryAggregate`
return the item with zero aggregator invocations (likewise the empty
sequence causes no invocation); the aggregator is first invoked only when a
second item exists, and its first invocation receives the first two items
of the sequence. -/
theorem aggregate_single_item_no_call (agg : α → α → α) (x y : α) (rest : List α) :
    tryAggregateCalls agg [x] = (some x, [])
    ∧ aggregate agg [x] = Except.ok x
    ∧ tryAggregateCalls agg [] = (none, [])
    ∧ (∀ l : List α, tryAggregate agg l = (tryAggregateCalls agg l).1)
    ∧ (tryAggregateCalls agg (x :: y :: rest)).2.head? = some (x, y)
    ∧ (tryAggregateCalls agg (x :: y :: rest)).2 ≠ [] := by
  refine ⟨rfl, rfl, rfl, ?_, rfl, ?_⟩
  · intro l
    cases l <;> rfl
  · simp [tryAggregateCalls, aggLoop]

/-- C1 counterexample: on the array-backed iterator over `[42]`, `Next`
returns true and then false, after which `Current` silently returns the last
element `42` (modelled `some 42`) instead of failing with a panic (which the
model renders as `none`), refuting the claim that `Current` after a false
`Next` always fails. -/
theorem arr_current_after_exhaustion :
    (arrNext (arrIteratorNew ([42] : List Int))).1 = true
    ∧ (arrNext (arrNext (arrIteratorNew ([42] : List Int))).2).1 = false
    ∧ arrCurrent (arrNext (arrNext (arrIteratorNew ([42] : List Int))).2).2 = some 42 := by
  decide

/-- C1 amended: function-backed and map-backed iterators fail (panic, modelled
`none`) on `Current` both before any successful `Next` and after `Next` has
returned false; array/slice-backed iterators fail on `Current` before any
successful `Next` (a reflect index-out-of-range panic rather than a
UsageError), but a `Next` that returns false leaves `Current` unchanged, so
once a nonempty array is exhausted `Current` silently returns the last
element rather than failing. -/
theorem iterator_current_protocol [Inhabited α]
    (f : σ → (α × Bool) × σ) (s : σ) (xs : List α) (ps : List (κ × ν)) :
    funCurrent (funIteratorNew f s) = none
    ∧ (∀ it : FunIterator σ α, (funNext it).1 = false → funCurrent (funNext it).2 = none)
    ∧ arrCurrent (arrIteratorNew xs) = none
    ∧ (∀ it : ArrIterator α, (arrNext it).1 = false → arrCurrent (arrNext it).2 = arrCurrent it)
    ∧ (xs ≠ [] → arrCurrent { array := xs, index := (xs.length : Int) - 1 } = xs.getLast?)
    ∧ mapIterCurrent (mapIteratorNew ps) = none
    ∧ (∀ it : GoMapIterator κ ν, (mapIterNext it).1 = false →
        mapIterCurrent (mapIterNext it).2 = none) := by
  refine ⟨rfl, ?_, rfl, ?_, ?_, rfl, ?_⟩
  · intro it h
    simp only [funNext] at h
    simp [funCurrent, funNext, h]
  · intro it h
    unfold arrNext at h ⊢
    by_cases hc : it.index + 1 < (it.array.length : Int)
    · rw [if_pos hc] at h
      exact absurd h (by simp)
    · rw [if_neg hc]
  · intro hne
    have hlen : 0 < xs.length := List.length_pos.mpr hne
    have h0 : (0 : Int) ≤ (xs.length : Int) - 1 := by omega
    have ht : ((xs.length : Int) - 1).toNat = xs.length - 1 := by omega
    unfold arrCurrent
    simp only [if_pos h0, ht]
    rw [List.getLast?_eq_getElem?]
  · intro it h
    unfold mapIterNext at h ⊢
    by_cases hc : it.index + 1 < (it.pairs.length : Int)
    · rw [if_pos hc] at h
      exact absurd h (by simp)
    · rw [if_neg hc]
      have h0 : (0 : Int) ≤ (it.pairs.length : Int) := Int.natCast_nonneg _
      have ht : ((it.pairs.length : Int)).toNat = it.pairs.length := by omega
      have hnone := getElem?_of_length_le it.pairs it.pairs.length (le_refl _)
      simp [mapIterCurrent, h0, ht, hnone]

/-- Witness for C1 amended at concrete iterators over `Int`. -/
theorem iterator_current_protocol_witness :
    funCurrent (funIteratorNew (fun s : Unit => (((0 : Int), false), s)) ()) = none
    ∧ funCurrent (funNext (funIteratorNew (fun s : Unit => (((0 : Int), false), s)) ())).2 = none
    ∧ arrCurrent (arrIteratorNew ([5] : List Int)) = none
    ∧ arrCurrent (arrNext { array := ([5] : List Int), index := 0 }).2
        = arrCurrent { array := ([5] : List Int), index := 0 }
    ∧ arrCurrent { array := ([5] : List Int), index := ((1 : Int) - 1) } = ([5] : List Int).getLast?
    ∧ mapIterCurrent (mapIteratorNew [((1 : Int), (2 : Int))]) = none
    ∧ mapIterCurrent (mapIterNext { pairs := [((1 : Int), (2 : Int))], index := 0 }).2 = none := by
  have h := iterator_current_protocol (fun s : Unit => (((0 : Int), false), s)) ()
    ([5] : List Int) [((1 : Int), (2 : Int))]
  refine ⟨h.1, h.2.1 _ (by decide), h.2.2.1, h.2.2.2.1 _ (by decide), ?_, h.2.2.2.2.2.1,
    h.2.2.2.2.2.2 _ (by decide)⟩
  exact h.2.2.2.2.1 (by decide)

/-- C2: `ParallelSelect` with a negative `maxThreads` panics with the
invalid-argument message before doing any work (the result does not depend
on the source or the selector), while `ParallelForEach` with a negative
thread count does not fail: it spawns exactly one task per source item as
they are pulled in order, and returns only after joining them all (the
`unbounded` outcome records the per-item task list). -/
theorem parallel_negative_thread_asymmetry (numCPU : Nat) (maxThreads threads : Int)
    (f : α → β) (src src₂ : List α) (hsel : maxThreads < 0) (hact : threads < 0) :
    parallelSelect numCPU maxThreads f src
      = PSelectResult.panicked "the number of threads must be non-negative"
    ∧ parallelSelect numCPU maxThreads f src = parallelSelect numCPU maxThreads f src₂
    ∧ parallelForEach numCPU threads src = ForEachOutcome.unbounded src := by
  refine ⟨?_, ?_, ?_⟩
  · simp [parallelSelect, if_pos hsel]
  · simp [parallelSelect, if_pos hsel]
  · simp [parallelForEach, if_pos hact]

/-- Witness for C2 at concrete thread counts and sources. -/
theorem parallel_negative_thread_asymmetry_witness :
    parallelSelect 4 (-1) (fun n : Int => n + 1) [1, 2]
      = PSelectResult.panicked "the number of threads must be non-negative"
    ∧ parallelForEach 4 (-2) ([1, 2] : List Int) = ForEachOutcome.unbounded [1, 2] := by
  have h := parallel_negative_thread_asymmetry 4 (-1) (-2) (fun n : Int => n + 1)
    [1, 2] [3] (by decide) (by decide)
  exact ⟨h.1, h.2.2⟩

/-- C4: for any materializing-operator value (Cache, Reverse, Order are the
instances `cacheSeq`, `reverseSeq`, `orderSeq`) and any interleaving of
iterator creations and advances against that value: the upstream is drained
at most once; creating iterators alone never fills the buffer (it is created
lazily by the first `Next`); the first `Next` from an unfilled state fills
the buffer with exactly the materialization of the source; any iterator
subsequently drawn from the same value replays exactly that buffer, still
without a second drain; and a structurally new application starts from the
fresh, independent state `matTraceInit`. -/
theorem materializing_buffer_once (m : MatSeq α) (cmds : List MatCmd) :
    (matRun m cmds).st.pulls ≤ 1
    ∧ ((∀ c ∈ cmds, c = MatCmd.newIter) → (matRun m cmds).st = matInit)
    ∧ (∀ (st : MatState α) (index : Nat), st.items = none →
        ((matNext m st index).2.1).items = some (m.compute m.src))
    ∧ (matDrain m (matRun m cmds).st 0 (m.compute m.src).length).1 = m.compute m.src
    ∧ (matDrain m (matRun m cmds).st 0 (m.compute m.src).length).2.pulls ≤ 1
    ∧ matRun m [] = matTraceInit := by
  have hinv := matRun_inv m cmds
  refine ⟨pulls_le_one_of_inv m _ hinv, matRun_newIters m cmds, ?_, ?_, ?_, rfl⟩
  · intro st idx h
    rw [matNext_state]
    simp [matFill, h]
  · rw [(matDrain_inv m _ hinv _).1]
    exact List.take_length _
  · exact (matDrain_inv m _ hinv _).2

/-- Witness for C4 on the Cache instance over `[1, 2]`. -/
theorem materializing_buffer_once_witness :
    (matRun (cacheSeq ([1, 2] : List Int)) [MatCmd.newIter]).st = matInit
    ∧ (matDrain (cacheSeq ([1, 2] : List Int))
        (matRun (cacheSeq ([1, 2] : List Int)) [MatCmd.newIter]).st 0 2).1 = [1, 2]
    ∧ (matNext (cacheSeq ([1, 2] : List Int)) matInit 0).2.1.items = some [1, 2] := by
  have h := materializing_buffer_once (cacheSeq ([1, 2] : List Int)) [MatCmd.newIter]
  refine ⟨h.2.1 ?_, ?_, h.2.2.1 matInit 0 rfl⟩
  · intro c hc
    simpa using hc
  · exact h.2.2.2.1
